import Mathlib

/-!
Verification of the build-orchestration and console-streaming engine of the
jenkins-job-cli repository (src/cmd/run.go), against its natural-language
specification.  The Go code is embedded shallowly: pure helpers become Lean
functions, unbounded Go loops become fueled recursion (with fuel chosen large
enough, so exhaustion is unreachable on the paths the theorems talk about, or
surfaced as `Option.none`), channel sends become explicit event lists, and the
external collaborators (the Jenkins HTTP API, the `html` entity decoder, the
wall clock) become oracle parameters.
-/

namespace JJ

/- ## String utilities (Go stdlib semantics used by run.go) -/

/-- Character-level model of Go's `unicode.IsSpace`: the Latin-1 white space
characters plus the Unicode `White_Space` code points. -/
def goIsSpace (c : Char) : Bool :=
  c = ' ' || c = '\t' || c = '\n' || c = '\u000B' || c = '\u000C' || c = '\r' ||
  c = '\u0085' || c = '\u00A0' || c = '\u1680' ||
  ('\u2000' ≤ c && c ≤ '\u200A') ||
  c = '\u2028' || c = '\u2029' || c = '\u202F' || c = '\u205F' || c = '\u3000'

/-- Model of Go's `strings.TrimSpace`: drop leading and trailing white space
(rune by rune). -/
def goTrimSpace (s : String) : String :=
  String.mk (((s.data.dropWhile goIsSpace).reverse.dropWhile goIsSpace).reverse)

/-- Scan past the first `>` (the tail of an HTML-tag match); `none` when the
remaining text contains no `>`, in which case the regex `<[^>]*>` has no
further match. -/
def dropTag : List Char → Option (List Char)
  | [] => none
  | c :: rest => if c = '>' then some rest else dropTag rest

/-- Fueled scanner for `regexp.MustCompile("<[^>]*>").ReplaceAllString(text, "")`
in `stripHTMLTags` (src/cmd/run.go:713-714): each match spans from a `<` to the
first `>` after it; an unclosed `<` (no later `>`) matches nothing and the rest
of the text is kept verbatim.  Fuel `length` is enough because every step
consumes at least one character. -/
def stripTagsAux : Nat → List Char → List Char
  | 0, cs => cs
  | _ + 1, [] => []
  | fuel + 1, c :: rest =>
    if c = '<' then
      match dropTag rest with
      | some rest' => stripTagsAux fuel rest'
      | none => c :: rest
    else c :: stripTagsAux fuel rest

def stripTags (cs : List Char) : List Char :=
  stripTagsAux cs.length cs

/-- Model of `stripHTMLTags` (src/cmd/run.go:711-729): remove HTML tags, decode
entities, drop lines blank after trimming, rejoin with newlines.  The entity
decoder `html.UnescapeString` is an external Go stdlib table and is taken as an
oracle parameter `unescape`. -/
def stripHTMLTags (unescape : String → String) (text : String) : String :=
  let decoded := unescape (String.mk (stripTags text.data))
  String.intercalate "\n"
    ((decoded.splitOn "\n").filter (fun line => goTrimSpace line ≠ ""))

/- ## Chunking of one source line (src/cmd/run.go:423-445) -/

/-- Fueled model of the inner chunking loop of the `handle` closure
(src/cmd/run.go:423-445), producing the `fline` values in order for one source
line `rline` (a rune slice).  Go:

    j := 0; size := 100
    for {
      s := j*size; e := (j+1)*size
      if len(rline) > e { fline = rline[s:e] } else { fline = rline[s:len(rline)] }
      ...
      j++
      if len(rline) <= e || len(rline) > 10*size { break }
    }

Fuel `rline.length / 100 + 1` bounds the iteration count: the loop runs at most
`⌈len/100⌉` times when `len ≤ 1000` and exactly once otherwise. -/
def chunkFromAux (rline : List Char) : Nat → Nat → List String
  | 0, _ => []
  | fuel + 1, j =>
    let e := (j + 1) * 100
    let fline :=
      if e < rline.length then String.mk ((rline.drop (j * 100)).take 100)
      else String.mk (rline.drop (j * 100))
    if rline.length ≤ e ∨ 1000 < rline.length then [fline]
    else fline :: chunkFromAux rline fuel (j + 1)

def chunkLine (rline : List Char) : List String :=
  chunkFromAux rline (rline.length / 100 + 1) 0

/- ## Per-call normalization state of the handle closure -/

/-- State threaded through one call of the `handle` closure
(src/cmd/run.go:401-467): `seen` is the `seenLines` dedup set, `display` the
`displayLines` slice, `emitted` records every chunk ever appended to
`displayLines` during the call, `sent` the messages forwarded on `chMsg`
(non-verbose mode). -/
structure HandleState where
  seen : List String
  display : List String
  emitted : List String
  sent : List String
deriving DecidableEq, Repr

def initialHandleState : HandleState := ⟨[], [], [], []⟩

/-- Dedup-append loop body (src/cmd/run.go:435-439): a chunk is appended to
`displayLines` iff its trimmed form is nonempty and not in `seenLines`. -/
def appendChunks (st : HandleState) : List String → HandleState
  | [] => st
  | fline :: rest =>
    let t := goTrimSpace fline
    if t ≠ "" ∧ ¬ t ∈ st.seen then
      appendChunks
        { st with
          seen := t :: st.seen
          display := st.display ++ [fline]
          emitted := st.emitted ++ [fline] } rest
    else appendChunks st rest

/-- Processing of one source line in the default (non-verbose) mode
(src/cmd/run.go:417-464): chunk the line, dedup-append, and if `displayLines`
is nonempty forward its last element on `chMsg` and reset it. -/
def lineStep (st : HandleState) (line : String) : HandleState :=
  let st1 := appendChunks st (chunkLine line.data)
  if 0 < st1.display.length then
    { st1 with display := [], sent := st1.sent ++ [st1.display.getLastD ""] }
  else st1

/-- Retention of at most the most recent 50 source lines
(src/cmd/run.go:408-417): `count := min len 50`, and the loop
`for i := count; i >= 1; i--` reads `lines[len(lines)-i]`, i.e. the last
`count` lines, oldest first. -/
def retainLines (lines : List String) : List String :=
  lines.drop (lines.length - min lines.length 50)

/-- One full normalization call of the `handle` closure over the post-strip
source lines, in the default mode. -/
def handleRun (lines : List String) : HandleState :=
  (retainLines lines).foldl lineStep initialHandleState

/-- Invariant of the per-call dedup state: every chunk ever appended to
`displayLines` is nonempty after trimming, its trimmed form has been recorded
in `seenLines`, and no two appended chunks share a trimmed form. -/
def EmitInv (st : HandleState) : Prop :=
  (∀ c ∈ st.emitted, goTrimSpace c ≠ "" ∧ goTrimSpace c ∈ st.seen) ∧
    st.emitted.Pairwise (fun a b => goTrimSpace a ≠ goTrimSpace b)

/- ## The handle closure's cursor protocol (src/cmd/run.go:401-467) -/

/-- Model of the `handle` closure: the console fetch `jj.Console` is the oracle
`fetch` (`none` = error).  On error or an unchanged cursor, `handle` returns
the input cursor and sends nothing; otherwise it normalizes the new output,
forwards messages, and returns the new cursor. -/
def consoleHandle (fetch : String → Option (String × String))
    (unescape : String → String) (cursor : String) : String × List String :=
  match fetch cursor with
  | none => (cursor, [])
  | some (output, nextCursor) =>
    if cursor = nextCursor then (cursor, [])
    else (nextCursor,
      (handleRun ((stripHTMLTags unescape output).splitOn "\n")).sent)

/-- Fueled model of the post-success exhaustive drain loop
(src/cmd/run.go:483-496): repeat `nc := handle(cursor, 1)`, stop when
`nc == cursor`, else `cursor = nc`.  Returns the messages sent and the final
cursor; `none` if the fuel runs out before the cursor stops advancing. -/
def drainLoop (fetch : String → Option (String × String))
    (unescape : String → String) : Nat → String → Option (List String × String)
  | 0, _ => none
  | fuel + 1, cursor =>
    let r := consoleHandle fetch unescape cursor
    if r.1 = cursor then some (r.2, cursor)
    else
      match drainLoop fetch unescape fuel r.1 with
      | none => none
      | some (rest, fc) => some (r.2 ++ rest, fc)

/- ## The build watch poll loop (src/cmd/run.go:469-534) -/

/-- Result of one `jj.GetBuildInfo` poll: the `Building` flag and the `Result`
tag of the build. -/
structure BuildInfo where
  building : Bool
  result : String
deriving DecidableEq, Repr

/-- Channel send observable from `watchTheJob`: either a console message on
`chMsg` or the terminal update on `finishCh` carrying `(err != nil, result)`. -/
inductive Send where
  | msg : String → Send
  | finish : Bool → String → Send
deriving DecidableEq, Repr

/-- Poll-failure budget of `watchTheJob` (src/cmd/run.go:472): the literal Go
constant `int64(30 * time.Millisecond)` = 30000000, compared against
`getTime() - stime`. -/
def failThreshold : Int := 30000000

/-- Fueled model of the main poll loop of `watchTheJob`
(src/cmd/run.go:469-534).  `polls k` is the `jj.GetBuildInfo` result of the
k-th iteration (`none` = error) and `elapsed k` the value of
`getTime() - stime` there; `drainFuel` bounds the post-success drain.  The
value is the ordered list of channel sends of the whole watch, or `none` if a
loop ran past its fuel. -/
def watchLoop (polls : Nat → Option BuildInfo) (elapsed : Nat → Int)
    (fetch : String → Option (String × String)) (unescape : String → String)
    (drainFuel : Nat) : Nat → Nat → String → Option (List Send)
  | 0, _, _ => none
  | fuel + 1, k, cursor =>
    match polls k with
    | none =>
      if failThreshold < elapsed k then some [Send.finish true "failed"]
      else
        let r := consoleHandle fetch unescape cursor
        match watchLoop polls elapsed fetch unescape drainFuel fuel (k + 1) r.1 with
        | none => none
        | some rest => some (r.2.map Send.msg ++ rest)
    | some bi =>
      if bi.building then
        let r := consoleHandle fetch unescape cursor
        match watchLoop polls elapsed fetch unescape drainFuel fuel (k + 1) r.1 with
        | none => none
        | some rest => some (r.2.map Send.msg ++ rest)
      else if bi.result = "SUCCESS" then
        match drainLoop fetch unescape drainFuel cursor with
        | none => none
        | some (dsends, _) => some (dsends.map Send.msg ++ [Send.finish false bi.result])
      else some [Send.finish true bi.result]

/- ## The bar-handler goroutine (src/cmd/run.go:294-360) -/

/-- Update received by `barHandler` over its four channels: a raw keystroke
(`keyCh`), a console message or progress tick (`chMsg`, empty string = tick),
the terminal finish update (`finishCh`), or the broadcast close (`closeCh`). -/
inductive Update where
  | key : String → Update
  | content : String → Update
  | fin : Bool → String → Update
  | closed : Update
deriving DecidableEq, Repr

/-- The prefix of an incoming update stream that `barHandler` actually
processes (src/cmd/run.go:313-359): every update is handled in order and the
loop returns immediately after a `finishCh` or `closeCh` update. -/
def barProcessed : List Update → List Update
  | [] => []
  | u :: rest =>
    match u with
    | .fin e r => [.fin e r]
    | .closed => [.closed]
    | u => u :: barProcessed rest

/-- Mapping of a `watchTheJob` channel send to the update `barHandler` receives
for it. -/
def sendToUpdate : Send → Update
  | .msg s => .content s
  | .finish e r => .fin e r

def Send.isFinish : Send → Bool
  | .finish _ _ => true
  | .msg _ => false

/- ## The progress-ticking goroutine (src/cmd/run.go:384-399) -/

/-- Fueled model of the inner emission loop of the ticking goroutine
(src/cmd/run.go:391-394): `for ticks < newTicks && ticks < 99 { chMsg <- "";
ticks++ }`.  The result is the final counter and the counter values right
after each emitted tick; fuel `99 - ticks` is exact, since the counter cannot
pass 99. -/
def tickCycleAux (newTicks : Int) : Nat → Nat → Nat × List Nat
  | 0, ticks => (ticks, [])
  | fuel + 1, ticks =>
    if (ticks : Int) < newTicks ∧ ticks < 99 then
      let r := tickCycleAux newTicks fuel (ticks + 1)
      (r.1, (ticks + 1) :: r.2)
    else (ticks, [])

def tickCycle (newTicks : Int) (ticks : Nat) : Nat × List Nat :=
  tickCycleAux newTicks (99 - ticks) ticks

/-- The ticking goroutine over `n` wake-ups of its 100ms timer: `newTicksAt k`
is the value `int(float64(dtime) / float64(lastBuild.Duration) * 100)` computed
at the k-th wake-up (an oracle, since it involves wall time and float
arithmetic).  Result: final counter and all emitted tick counts in order. -/
def tickRun (newTicksAt : Nat → Int) : Nat → Nat → Nat × List Nat
  | 0, ticks => (ticks, [])
  | n + 1, ticks =>
    let c := tickCycle (newTicksAt n) ticks
    let r := tickRun newTicksAt n c.1
    (r.1, c.2 ++ r.2)

/- ## The cancellation controller (src/cmd/run.go:613-679) -/

/-- The process-wide session record `st` (src/cmd/run.go:51-55). -/
structure Sess where
  name : String
  id : Int
  queue : Int
deriving DecidableEq, Repr

def emptySess : Sess := ⟨"", 0, 0⟩

/-- Outcome reported by the interrupt handler's active-build branch
(src/cmd/run.go:639-652). -/
inductive CancelReport where
  | cancelFailed : String → CancelReport
  | alreadyExecuted : String → CancelReport
  | canceled : CancelReport
deriving DecidableEq, Repr

/-- Decision of the `curSt.id != 0` branch (src/cmd/run.go:639-652) on the
result of `jj.CancelJob`: report a cancel error, report
`Job already has been executed, status: X` when the returned status is not
`ABORTED`, and report `Canceled` otherwise. -/
def cancelJobReport (cancelRes : Except String String) : CancelReport :=
  match cancelRes with
  | .error e => .cancelFailed e
  | .ok status => if status ≠ "ABORTED" then .alreadyExecuted status else .canceled

/-- The confirmation gate of `listenInterrupt` (src/cmd/run.go:633-652) for a
session with an active build number: the cancel branch runs only on a `Y`/`y`
answer, and with `curSt.id != 0` it reports `cancelJobReport` of the
`jj.CancelJob` result.  `none` models the paths that never reach that report. -/
def interruptReport (answer : String) (sess : Sess)
    (cancelRes : Except String String) : Option CancelReport :=
  if answer = "Y" ∨ answer = "y" then
    if sess.id ≠ 0 then some (cancelJobReport cancelRes) else none
  else none

/- ## Session resets along a watched chain (src/cmd/run.go:255-274) -/

/-- Session-related event in `runJob`'s control flow: a watch of one job
returning (`true` = nil error), the assignment `curSt = st{}`, or the command
returning. -/
inductive ChainEv where
  | watched : Sess → Bool → ChainEv
  | reset : ChainEv
  | ret : ChainEv
deriving DecidableEq, Repr

/-- Events of the downstream loop of `runJob` (src/cmd/run.go:265-273): each
child is watched via `watchNext`; on error the command returns at once,
otherwise `curSt = st{}` runs and the loop continues. -/
def chainChildren : List (Sess × Bool) → List ChainEv
  | [] => [ChainEv.ret]
  | (s, ok) :: rest =>
    ChainEv.watched s ok ::
      (if ok then ChainEv.reset :: chainChildren rest else [ChainEv.ret])

/-- Session events of one `runJob` invocation (src/cmd/run.go:255-274): the
parent watch (`watchTheJob`), `return` on error, else `curSt = st{}` and the
downstream loop. -/
def runJobEvents (parent : Sess) (parentOk : Bool)
    (children : List (Sess × Bool)) : List ChainEv :=
  ChainEv.watched parent parentOk ::
    (if parentOk then ChainEv.reset :: chainChildren children else [ChainEv.ret])

/-- The claim's discipline: every completed-or-failed watch is immediately
followed by a session reset (before any further event). -/
def resetAfterEachWatch : List ChainEv → Bool
  | [] => true
  | ChainEv.watched _ _ :: ChainEv.reset :: rest =>
    resetAfterEachWatch (ChainEv.reset :: rest)
  | ChainEv.watched _ _ :: _ => false
  | _ :: rest => resetAfterEachWatch rest

/-- The discipline the code actually maintains: a successful watch is
immediately followed by a session reset, a failed watch immediately by the
command returning (with no reset). -/
def sessionDiscipline : List ChainEv → Bool
  | [] => true
  | ChainEv.watched _ true :: ChainEv.reset :: rest =>
    sessionDiscipline (ChainEv.reset :: rest)
  | ChainEv.watched _ false :: ChainEv.ret :: rest =>
    sessionDiscipline (ChainEv.ret :: rest)
  | ChainEv.watched _ _ :: _ => false
  | _ :: rest => sessionDiscipline rest

/- ## Lemmas about chunking -/

/-- A line of at most 100 runes yields a single chunk: the line itself. -/
theorem chunkLine_le100 (rline : List Char) (h : rline.length ≤ 100) :
    chunkLine rline = [String.mk rline] := by
  have h1 : ¬ (0 + 1) * 100 < rline.length := by omega
  have h2 : rline.length ≤ (0 + 1) * 100 := by omega
  simp [chunkLine, chunkFromAux, h1, h2]

/-- A line longer than 10 × 100 runes yields a single chunk — its first 100
runes — because the guard `len(rline) > 10*size` breaks the loop right after
the first iteration. -/
theorem chunkLine_long (rline : List Char) (h : 1000 < rline.length) :
    chunkLine rline = [String.mk (rline.take 100)] := by
  have h1 : (0 + 1) * 100 < rline.length := by omega
  simp [chunkLine, chunkFromAux, h1, h, Nat.not_le.mpr h1]

/- ## C5 -/

/-- C5, counterexample: on a source line of exactly 1050 characters the
chunking loop does not produce 10 chunks (it produces exactly one, because the
guard `len(rline) > 10*size` fires right after the first chunk). -/
theorem c5_counterexample :
    ¬ (chunkLine (List.replicate 1050 'a')).length = 10 := by
  rw [chunkLine_long _ (by rw [List.length_replicate]; norm_num)]
  norm_num

/-- C5 (amended): for a single source line of exactly 1050 characters with
chunk width 100, the chunking loop produces exactly one fixed-width chunk —
the first 100 characters — and hence stops before producing more than 10
chunks for that line. -/
theorem c5_chunking (rline : List Char) (h : rline.length = 1050) :
    chunkLine rline = [String.mk (rline.take 100)] ∧
      (chunkLine rline).length ≤ 10 := by
  rw [chunkLine_long rline (by omega)]
  simp

/-- Witness for C5 at the concrete 1050-character line. -/
theorem c5_chunking_witness :
    (List.replicate 1050 'a').length = 1050 ∧
      (chunkLine (List.replicate 1050 'a')
          = [String.mk ((List.replicate 1050 'a').take 100)] ∧
        (chunkLine (List.replicate 1050 'a')).length ≤ 10) :=
  ⟨by rw [List.length_replicate],
    c5_chunking (List.replicate 1050 'a') (by rw [List.length_replicate])⟩

/- ## C8 -/

/-- C8: once the user confirms cancellation of an active build (build number
nonzero), a cancel result whose status differs from `ABORTED` is reported as
`Job already has been executed, status: X`, and `Canceled` is reported exactly
when the returned status is `ABORTED`. -/
theorem c8_cancelRace (answer : String) (sess : Sess)
    (res : Except String String) (hans : answer = "Y" ∨ answer = "y")
    (hid : sess.id ≠ 0) :
    (∀ s, res = .ok s → s ≠ "ABORTED" →
        interruptReport answer sess res = some (.alreadyExecuted s)) ∧
    (interruptReport answer sess res = some .canceled ↔ res = .ok "ABORTED") := by
  constructor
  · intro s hres hs
    subst hres
    simp only [interruptReport, if_pos hans, if_pos hid, cancelJobReport]
    simp [hs]
  · simp only [interruptReport, if_pos hans, if_pos hid]
    cases res with
    | error e => simp [cancelJobReport]
    | ok s =>
      by_cases hs : s = "ABORTED"
      · subst hs; simp [cancelJobReport]
      · simp [cancelJobReport, hs]

/-- Witness for C8: confirmed cancellation, build 7, status `SUCCESS`. -/
theorem c8_cancelRace_witness :
    interruptReport "Y" ⟨"job", 7, 0⟩ (.ok "SUCCESS")
        = some (.alreadyExecuted "SUCCESS") ∧
      interruptReport "Y" ⟨"job", 7, 0⟩ (.ok "SUCCESS") ≠ some .canceled := by
  have h := c8_cancelRace "Y" ⟨"job", 7, 0⟩ (.ok "SUCCESS")
    (Or.inl rfl) (by decide)
  refine ⟨h.1 "SUCCESS" rfl (by decide), ?_⟩
  rw [h.1 "SUCCESS" rfl (by decide)]
  decide

/- ## C9 -/

/-- C9, counterexample: when the parent job's watch fails, `runJob` returns at
once (src/cmd/run.go:261-263) and the session record is never reset, so the
claimed reset-after-every-watch discipline fails on the concrete chain with a
failing parent and no children. -/
theorem c9_counterexample :
    resetAfterEachWatch (runJobEvents ⟨"job", 7, 3⟩ false []) = false := rfl

/-- Helper: the downstream loop keeps the discipline: reset after each
successful child watch, immediate return after a failing one. -/
theorem sessionDiscipline_chain (cs : List (Sess × Bool)) :
    sessionDiscipline (ChainEv.reset :: chainChildren cs) = true := by
  induction cs with
  | nil => rfl
  | cons hd tl ih =>
    obtain ⟨s, ok⟩ := hd
    cases ok with
    | true => simpa [chainChildren, sessionDiscipline] using ih
    | false => rfl

/-- C9 (amended): along a watched chain the session record is reset after each
watch that completes successfully, before the next job is watched; after a
failing watch the command returns immediately without resetting the record. -/
theorem c9_sessionResets (parent : Sess) (ok : Bool)
    (children : List (Sess × Bool)) :
    sessionDiscipline (runJobEvents parent ok children) = true := by
  cases ok with
  | false => rfl
  | true =>
    simpa [runJobEvents, sessionDiscipline] using sessionDiscipline_chain children

/- ## C1 -/

/-- C1: the `handle` closure returns the input cursor unchanged whenever the
console fetch errors or returns a cursor equal to the input; and the
post-success exhaustive drain loop stops exactly at a cursor on which a fetch
cycle reports no new data, never advancing past it. -/
theorem c1_cursorProtocol (fetch : String → Option (String × String))
    (unescape : String → String) :
    (∀ c, fetch c = none → consoleHandle fetch unescape c = (c, [])) ∧
    (∀ c out, fetch c = some (out, c) → consoleHandle fetch unescape c = (c, [])) ∧
    (∀ c fuel, (consoleHandle fetch unescape c).1 = c →
        drainLoop fetch unescape (fuel + 1) c
          = some ((consoleHandle fetch unescape c).2, c)) ∧
    (∀ fuel c sends fc, drainLoop fetch unescape fuel c = some (sends, fc) →
        (consoleHandle fetch unescape fc).1 = fc) := by
  refine ⟨?_, ?_, ?_, ?_⟩
  · intro c h; simp [consoleHandle, h]
  · intro c out h; simp [consoleHandle, h]
  · intro c fuel h; simp [drainLoop, h]
  · intro fuel
    induction fuel with
    | zero => intro c sends fc h; simp [drainLoop] at h
    | succ n ih =>
      intro c sends fc h
      simp only [drainLoop] at h
      by_cases hc : (consoleHandle fetch unescape c).1 = c
      · rw [if_pos hc] at h
        obtain ⟨-, h2⟩ := Prod.mk.injEq .. ▸ Option.some.injEq .. ▸ h
        exact h2 ▸ hc
      · rw [if_neg hc] at h
        cases hr : drainLoop fetch unescape n (consoleHandle fetch unescape c).1 with
        | none => rw [hr] at h; cases h
        | some p =>
          obtain ⟨rest, fc'⟩ := p
          rw [hr] at h
          have : fc' = fc := by
            simpa using congrArg (fun o => (o.getD ([], "")).2) h
          exact ih _ _ _ (this ▸ hr)

/-- Witness for C1: a fetch oracle that always errors; the handler keeps the
cursor and the drain loop stops immediately. -/
theorem c1_cursorProtocol_witness :
    consoleHandle (fun _ => none) id "0" = ("0", []) ∧
      drainLoop (fun _ => none) id 1 "0" = some ([], "0") := by
  have h := c1_cursorProtocol (fun _ => none) id
  have h1 : consoleHandle (fun _ => none) id "0" = ("0", []) := h.1 "0" rfl
  refine ⟨h1, ?_⟩
  have h3 := h.2.2.1 "0" 0 (by rw [h1])
  rw [h3, h1]

/- ## C3 -/

/-- Helper: one emission cycle turns the counter `t` into some `t' ≥ t`,
emitting exactly the consecutive counts `t+1, …, t'`, and it can pass 99 only
by not moving at all. -/
theorem tickCycleAux_spec (nt : Int) :
    ∀ fuel t, (tickCycleAux nt fuel t).2
        = List.range' (t + 1) ((tickCycleAux nt fuel t).1 - t) ∧
      t ≤ (tickCycleAux nt fuel t).1 ∧
      ((tickCycleAux nt fuel t).1 = t ∨ (tickCycleAux nt fuel t).1 ≤ 99) := by
  intro fuel
  induction fuel with
  | zero => intro t; simp [tickCycleAux]
  | succ n ih =>
    intro t
    by_cases h : (t : Int) < nt ∧ t < 99
    · obtain ⟨h1, h2, h3⟩ := ih (t + 1)
      simp only [tickCycleAux, if_pos h]
      refine ⟨?_, by omega, by omega⟩
      rw [h1]
      have he : (tickCycleAux nt n (t + 1)).1 - t
          = ((tickCycleAux nt n (t + 1)).1 - (t + 1)) + 1 := by omega
      rw [he, List.range'_succ]
    · simp [tickCycleAux, if_neg h]

/-- Helper: across any number of timer wake-ups, the emitted tick counts are
exactly the consecutive counter values from the start value up to the final
one, and the counter never passes 99 once it starts at or below 99. -/
theorem tickRun_spec (newTicksAt : Nat → Int) :
    ∀ n t, (tickRun newTicksAt n t).2
        = List.range' (t + 1) ((tickRun newTicksAt n t).1 - t) ∧
      t ≤ (tickRun newTicksAt n t).1 ∧
      ((tickRun newTicksAt n t).1 = t ∨ (tickRun newTicksAt n t).1 ≤ 99) := by
  intro n
  induction n with
  | zero => intro t; simp [tickRun]
  | succ n ih =>
    intro t
    obtain ⟨hc1, hc2, hc3⟩ := tickCycleAux_spec (newTicksAt n) (99 - t) t
    obtain ⟨hr1, hr2, hr3⟩ := ih (tickCycle (newTicksAt n) t).1
    simp only [tickRun]
    refine ⟨?_, by simp only [tickCycle] at *; omega,
      by simp only [tickCycle] at *; omega⟩
    simp only [tickCycle] at *
    rw [hc1, hr1]
    have e1 : (tickCycleAux (newTicksAt n) (99 - t) t).1 + 1
        = (t + 1) + ((tickCycleAux (newTicksAt n) (99 - t) t).1 - t) := by omega
    rw [e1, List.range'_append_1]
    congr 1
    omega

/-- C3: starting from its initial value 1, the sequence of progress-tick
counts emitted by the ticking goroutine (src/cmd/run.go:384-399) is strictly
increasing, never reaches 100, the tick counter itself never exceeds 99, and a
cycle emits an update only when the recomputed percent exceeds the counter's
current value. -/
theorem c3_progressTicks (newTicksAt : Nat → Int) (n : Nat) :
    List.Chain' (· < ·) (tickRun newTicksAt n 1).2 ∧
    (∀ x ∈ (tickRun newTicksAt n 1).2, x < 100) ∧
    (tickRun newTicksAt n 1).1 ≤ 99 ∧
    (∀ nt t, (tickCycle nt t).2 ≠ [] → (t : Int) < nt) := by
  obtain ⟨h1, h2, h3⟩ := tickRun_spec newTicksAt n 1
  have hf : (tickRun newTicksAt n 1).1 ≤ 99 := by omega
  refine ⟨?_, ?_, hf, ?_⟩
  · rw [h1]
    exact (List.pairwise_lt_range' _ _).chain'
  · intro x hx
    rw [h1, List.mem_range'_1] at hx
    omega
  · intro nt t hne
    by_contra hlt
    apply hne
    simp only [tickCycle]
    cases h99 : 99 - t with
    | zero => simp [tickCycleAux]
    | succ m => simp [tickCycleAux, fun hc : (t : Int) < nt => hlt hc]

/-- Witness for C3: with a recomputed percent of 3, the ticker emits counts 2
and 3 and stops. -/
theorem c3_progressTicks_witness :
    List.Chain' (· < ·) (tickRun (fun _ => 3) 1 1).2 ∧
      (2 ∈ (tickRun (fun _ => 3) 1 1).2 ∧ 2 < 100) ∧
      ((tickCycle 3 1).2 ≠ [] ∧ ((1 : Nat) : Int) < 3) := by
  have h := c3_progressTicks (fun _ => 3) 1
  have hm : 2 ∈ (tickRun (fun _ => 3) 1 1).2 := by decide
  exact ⟨h.1, ⟨hm, h.2.1 2 hm⟩, ⟨by decide, h.2.2.2 3 1 (by decide)⟩⟩

/- ## C7 -/

/-- C7: when every build-info poll errors and the elapsed time passes the
failure budget within the watch's horizon, the watch terminates with the
generic `failed` finish update — all earlier sends are console messages, and
no build state (in particular no non-building one) is ever observed because
every poll is an error. -/
theorem c7_pollErrors (elapsed : Nat → Int)
    (fetch : String → Option (String × String)) (unescape : String → String)
    (drainFuel fuel k : Nat) (cursor : String) (j : Nat)
    (hkj : k ≤ j) (hjf : j < k + fuel) (hth : failThreshold < elapsed j) :
    ∃ msgs : List String,
      watchLoop (fun _ => none) elapsed fetch unescape drainFuel fuel k cursor
        = some (msgs.map Send.msg ++ [Send.finish true "failed"]) := by
  induction fuel generalizing k cursor with
  | zero => omega
  | succ n ih =>
    by_cases h : failThreshold < elapsed k
    · exact ⟨[], by simp [watchLoop, h]⟩
    · have hkj' : k + 1 ≤ j := by
        rcases Nat.eq_or_lt_of_le hkj with rfl | hlt
        · exact absurd hth h
        · omega
      obtain ⟨msgs, hm⟩ :=
        ih (k + 1) (consoleHandle fetch unescape cursor).1 hkj' (by omega)
      refine ⟨(consoleHandle fetch unescape cursor).2 ++ msgs, ?_⟩
      simp [watchLoop, h, hm]

/-- Witness for C7: with the elapsed clock already past the budget, the watch
fails on its first poll error. -/
theorem c7_pollErrors_witness :
    ((0 : Nat) ≤ 0 ∧ (0 : Nat) < 0 + 1 ∧ failThreshold < failThreshold + 1) ∧
      ∃ msgs : List String,
        watchLoop (fun _ => none) (fun _ => failThreshold + 1) (fun _ => none)
            id 0 1 0 "0"
          = some (msgs.map Send.msg ++ [Send.finish true "failed"]) :=
  ⟨⟨le_refl 0, Nat.lt_succ_self 0, lt_add_one failThreshold⟩,
    c7_pollErrors (fun _ => failThreshold + 1) (fun _ => none) id 0 1 0 "0" 0
      (le_refl 0) (Nat.lt_succ_self 0) (lt_add_one failThreshold)⟩

/- ## C2 -/

/-- Helper: every terminating run of the watch loop sends a list of console
messages followed by exactly one finish update. -/
theorem watchLoop_sends (polls : Nat → Option BuildInfo) (elapsed : Nat → Int)
    (fetch : String → Option (String × String)) (unescape : String → String)
    (drainFuel : Nat) :
    ∀ fuel k cursor tr,
      watchLoop polls elapsed fetch unescape drainFuel fuel k cursor = some tr →
      ∃ (msgs : List String) (e : Bool) (r : String),
        tr = msgs.map Send.msg ++ [Send.finish e r] := by
  intro fuel
  induction fuel with
  | zero => intro k cursor tr h; simp [watchLoop] at h
  | succ n ih =>
    intro k cursor tr h
    simp only [watchLoop] at h
    cases hp : polls k with
    | none =>
      rw [hp] at h
      dsimp only at h
      by_cases hth : failThreshold < elapsed k
      · rw [if_pos hth] at h
        exact ⟨[], true, "failed", by simpa using h.symm⟩
      · rw [if_neg hth] at h
        cases hw : watchLoop polls elapsed fetch unescape drainFuel n (k + 1)
            (consoleHandle fetch unescape cursor).1 with
        | none => rw [hw] at h; cases h
        | some rest =>
          rw [hw] at h
          obtain ⟨msgs, e, r, hrest⟩ := ih (k + 1) _ rest hw
          refine ⟨(consoleHandle fetch unescape cursor).2 ++ msgs, e, r, ?_⟩
          have htr : (consoleHandle fetch unescape cursor).2.map Send.msg ++ rest
              = tr := by simpa using h
          rw [← htr, hrest]
          simp
    | some bi =>
      rw [hp] at h
      dsimp only at h
      by_cases hb : bi.building
      · rw [if_pos hb] at h
        cases hw : watchLoop polls elapsed fetch unescape drainFuel n (k + 1)
            (consoleHandle fetch unescape cursor).1 with
        | none => rw [hw] at h; cases h
        | some rest =>
          rw [hw] at h
          obtain ⟨msgs, e, r, hrest⟩ := ih (k + 1) _ rest hw
          refine ⟨(consoleHandle fetch unescape cursor).2 ++ msgs, e, r, ?_⟩
          have htr : (consoleHandle fetch unescape cursor).2.map Send.msg ++ rest
              = tr := by simpa using h
          rw [← htr, hrest]
          simp
      · rw [if_neg hb] at h
        by_cases hs : bi.result = "SUCCESS"
        · rw [if_pos hs] at h
          cases hd : drainLoop fetch unescape drainFuel cursor with
          | none => rw [hd] at h; cases h
          | some p =>
            rw [hd] at h
            exact ⟨p.1, false, bi.result, by simpa using h.symm⟩
        · rw [if_neg hs] at h
          exact ⟨[], true, bi.result, by simpa using h.symm⟩

/-- Helper: the bar handler consumes a stream of console messages and then a
finish update in full, exiting right after the finish. -/
theorem barProcessed_msgs (ms : List String) (e : Bool) (r : String) :
    barProcessed (ms.map Update.content ++ [Update.fin e r])
      = ms.map Update.content ++ [Update.fin e r] := by
  induction ms with
  | nil => rfl
  | cons a tl ih => simpa [barProcessed] using ih

/-- C2: every terminating run of the watch loop sends exactly one finish
update, it is the last send of the watch, and the bar-handler goroutine
processes the whole stream, the finish update being the last update it
processes before exiting. -/
theorem c2_singleFinish (polls : Nat → Option BuildInfo) (elapsed : Nat → Int)
    (fetch : String → Option (String × String)) (unescape : String → String)
    (drainFuel fuel k : Nat) (cursor : String) (tr : List Send)
    (h : watchLoop polls elapsed fetch unescape drainFuel fuel k cursor = some tr) :
    ∃ (msgs : List String) (e : Bool) (r : String),
      tr = msgs.map Send.msg ++ [Send.finish e r] ∧
      tr.filter Send.isFinish = [Send.finish e r] ∧
      barProcessed (tr.map sendToUpdate) = tr.map sendToUpdate ∧
      (tr.map sendToUpdate).getLast? = some (Update.fin e r) := by
  obtain ⟨msgs, e, r, htr⟩ :=
    watchLoop_sends polls elapsed fetch unescape drainFuel fuel k cursor tr h
  subst htr
  refine ⟨msgs, e, r, rfl, ?_, ?_, ?_⟩
  · rw [List.filter_append]
    have h1 : (msgs.map Send.msg).filter Send.isFinish = [] := by
      rw [List.filter_eq_nil_iff]
      intro a ha
      obtain ⟨m, -, rfl⟩ := List.mem_map.mp ha
      simp [Send.isFinish]
    rw [h1]
    simp [Send.isFinish]
  · have hmap : (msgs.map Send.msg ++ [Send.finish e r]).map sendToUpdate
        = msgs.map Update.content ++ [Update.fin e r] := by
      simp [List.map_map, Function.comp, sendToUpdate]
    rw [hmap, barProcessed_msgs]
  · have hmap : (msgs.map Send.msg ++ [Send.finish e r]).map sendToUpdate
        = msgs.map Update.content ++ [Update.fin e r] := by
      simp [List.map_map, Function.comp, sendToUpdate]
    rw [hmap, List.getLast?_concat]

/-- Witness for C2 on the terminal non-SUCCESS path: a first poll reporting a
finished `FAILURE` build yields the single finish send. -/
theorem c2_singleFinish_witness :
    ∃ (msgs : List String) (e : Bool) (r : String),
      [Send.finish true "FAILURE"] = msgs.map Send.msg ++ [Send.finish e r] ∧
      (List.filter Send.isFinish [Send.finish true "FAILURE"])
          = [Send.finish e r] ∧
      barProcessed (List.map sendToUpdate [Send.finish true "FAILURE"])
          = List.map sendToUpdate [Send.finish true "FAILURE"] ∧
      (List.map sendToUpdate [Send.finish true "FAILURE"]).getLast?
          = some (Update.fin e r) :=
  c2_singleFinish (fun _ => some ⟨false, "FAILURE"⟩) (fun _ => 0) (fun _ => none)
    id 0 1 0 "0" [Send.finish true "FAILURE"] rfl

/- ## C6 -/

/-- Helper: the dedup-append loop extends `displayLines` and the emitted log
by the same new chunks and never touches `sent`. -/
theorem appendChunks_extends (cs : List String) :
    ∀ st : HandleState, ∃ newc : List String,
      (appendChunks st cs).display = st.display ++ newc ∧
      (appendChunks st cs).emitted = st.emitted ++ newc ∧
      (appendChunks st cs).sent = st.sent := by
  induction cs with
  | nil => intro st; exact ⟨[], by simp [appendChunks]⟩
  | cons fline rest ih =>
    intro st
    simp only [appendChunks]
    by_cases h : goTrimSpace fline ≠ "" ∧ ¬ goTrimSpace fline ∈ st.seen
    · rw [if_pos h]
      obtain ⟨newc, h1, h2, h3⟩ := ih
        { st with
          seen := goTrimSpace fline :: st.seen
          display := st.display ++ [fline]
          emitted := st.emitted ++ [fline] }
      exact ⟨fline :: newc, by simpa using h1, by simpa using h2, h3⟩
    · rw [if_neg h]
      exact ih st

/-- Helper: the dedup-append loop preserves the emission invariant. -/
theorem appendChunks_inv (cs : List String) :
    ∀ st : HandleState, EmitInv st → EmitInv (appendChunks st cs) := by
  induction cs with
  | nil => intro st h; simpa [appendChunks] using h
  | cons fline rest ih =>
    intro st hst
    simp only [appendChunks]
    by_cases h : goTrimSpace fline ≠ "" ∧ ¬ goTrimSpace fline ∈ st.seen
    · rw [if_pos h]
      refine ih _ ⟨?_, ?_⟩
      · intro c hc
        rcases List.mem_append.mp hc with hold | hnew
        · exact ⟨(hst.1 c hold).1, List.mem_cons_of_mem _ (hst.1 c hold).2⟩
        · rw [List.mem_singleton.mp hnew]
          exact ⟨h.1, List.mem_cons_self _ _⟩
      · rw [List.pairwise_append]
        refine ⟨hst.2, List.pairwise_singleton _ _, ?_⟩
        intro a ha b hb
        rw [List.mem_singleton.mp hb]
        intro heq
        exact h.2 (heq ▸ (hst.1 a ha).2)
    · rw [if_neg h]
      exact ih st hst

/-- Helper: processing one line preserves the emission invariant. -/
theorem lineStep_inv (st : HandleState) (line : String) (h : EmitInv st) :
    EmitInv (lineStep st line) := by
  have h1 := appendChunks_inv (chunkLine line.data) st h
  unfold lineStep
  by_cases hd : 0 < (appendChunks st (chunkLine line.data)).display.length
  · rw [if_pos hd]
    exact ⟨h1.1, h1.2⟩
  · rw [if_neg hd]
    exact h1

/-- Helper: the whole per-call fold preserves the emission invariant. -/
theorem foldl_lineStep_inv (ls : List String) :
    ∀ st : HandleState, EmitInv st → EmitInv (ls.foldl lineStep st) := by
  induction ls with
  | nil => intro st h; simpa using h
  | cons a tl ih => intro st h; exact ih _ (lineStep_inv st a h)

/-- C6: one normalization call considers at most the most recent 50 source
lines (a suffix of the input, processed oldest first); a chunk whose trimmed
content is empty is never appended to `displayLines`; and no two chunks
appended within the same call share their trimmed content. -/
theorem c6_normalizer (lines : List String) :
    (lines.take (lines.length - min lines.length 50) ++ retainLines lines
        = lines) ∧
    (retainLines lines).length = min lines.length 50 ∧
    (∀ c ∈ (handleRun lines).emitted, goTrimSpace c ≠ "") ∧
    (handleRun lines).emitted.Pairwise
      (fun a b => goTrimSpace a ≠ goTrimSpace b) := by
  have hinv : EmitInv (handleRun lines) := by
    unfold handleRun
    refine foldl_lineStep_inv _ _ ⟨?_, ?_⟩
    · intro c hc; cases hc
    · exact List.Pairwise.nil
  refine ⟨List.take_append_drop _ _, ?_, fun c hc => (hinv.1 c hc).1, hinv.2⟩
  have h50 : min lines.length 50 ≤ lines.length := Nat.min_le_left _ _
  simp [retainLines]
  omega

/-- Witness for C6 on the one-line batch `["a"]`. -/
theorem c6_normalizer_witness :
    "a" ∈ (handleRun ["a"]).emitted ∧ goTrimSpace "a" ≠ "" := by
  have hm : "a" ∈ (handleRun ["a"]).emitted := by decide
  exact ⟨hm, (c6_normalizer ["a"]).2.2.1 "a" hm⟩

/- ## C10 -/

/-- C10: in the default display mode, each source line forwards at most one
chunk to the render coordinator — the last chunk of that line that passed
deduplication — while the earlier passed chunks of the line stay only in the
emitted log (`displayLines` is reset without sending them), and `displayLines`
is empty again after every line. -/
theorem c10_lastChunkOnly (st : HandleState) (line : String) :
    (lineStep st line).display = [] ∧
    (∃ newc : List String,
      (appendChunks st (chunkLine line.data)).display = st.display ++ newc ∧
      (appendChunks st (chunkLine line.data)).emitted = st.emitted ++ newc) ∧
    ((appendChunks st (chunkLine line.data)).display = [] →
      (lineStep st line).sent = st.sent) ∧
    ((appendChunks st (chunkLine line.data)).display ≠ [] →
      (lineStep st line).sent = st.sent ++
        [(appendChunks st (chunkLine line.data)).display.getLastD ""]) ∧
    (lineStep st line).sent.length ≤ st.sent.length + 1 := by
  obtain ⟨newc, h1, h2, h3⟩ := appendChunks_extends (chunkLine line.data) st
  unfold lineStep
  by_cases hd : 0 < (appendChunks st (chunkLine line.data)).display.length
  · rw [if_pos hd]
    refine ⟨rfl, ⟨newc, h1, h2⟩, ?_, fun _ => by rw [h3], ?_⟩
    · intro h0; rw [h0] at hd; cases hd
    · simp [h3]
  · rw [if_neg hd]
    have hdisp : (appendChunks st (chunkLine line.data)).display = [] :=
      List.eq_nil_of_length_eq_zero (by omega)
    refine ⟨hdisp, ⟨newc, h1, h2⟩, fun _ => h3, fun hne => absurd hdisp hne, ?_⟩
    rw [h3]
    omega

/-- Witness for C10: the line `hi` produces one passed chunk and exactly that
chunk is forwarded. -/
theorem c10_lastChunkOnly_witness :
    (lineStep initialHandleState "hi").display = [] ∧
      (lineStep initialHandleState "hi").sent = initialHandleState.sent ++
        [(appendChunks initialHandleState (chunkLine "hi".data)).display.getLastD ""] := by
  have h := c10_lastChunkOnly initialHandleState "hi"
  exact ⟨h.1, h.2.2.2.1 (by decide)⟩

end JJ
